import Mathlib

/-!
Shallow embedding of the task/schedule/project-tree logic of
`samples/materialize_workbooks.py` and of the tasks endpoint
(`tableauserverclient/server/endpoint/tasks_endpoint.py`).

Python strings are modelled as lists of characters (`Str`), Python `None`
as `Option`, dictionaries as insertion-ordered association lists with
replace-on-rewrite semantics, uncaught Python exceptions as `Except.error`,
and the server as explicit oracles (query results, per-call success of a
mutation).  Recursions of the source that walk `parent_id` links carry an
explicit fuel argument: the source recursion terminates exactly on the
inputs where some fuel yields a result.
-/

/-- Python strings, modelled as lists of characters. -/
abbrev Str := List Char

/-- The path separator used throughout the sample. -/
def slash : Char := '/'

/-- Splitting of a string on every occurrence of a separator character,
as Python's `str.split(sep)`: `""` splits to `[""]`, a separator at either
end produces an empty piece. -/
def splitOnChar (sep : Char) : Str → List Str
  | [] => [[]]
  | c :: rest =>
    match splitOnChar sep rest with
    | [] => []
    | s :: ss => if c = sep then [] :: s :: ss else (c :: s) :: ss

/-- Joining of a list of strings with a separator character, as Python's
`sep.join(pieces)`. -/
def joinWith (sep : Char) : List Str → Str
  | [] => []
  | [s] => s
  | s :: rest => s ++ sep :: joinWith sep rest

/-- A project as the sample sees it: an opaque unique id, a display name and
an optional parent project id (`None` for a root project). -/
structure Project where
  id : Nat
  name : Str
  parent_id : Option Nat
deriving DecidableEq, Repr

/-- Lookup of a project by id in the arena built by
`{project.id: project for project in TSC.Pager(server.projects)}`; with the
server's ids unique this is exactly Python's dict access, and a miss models
the dict's `KeyError`. -/
def lookupProject (all_projects : List Project) (i : Nat) : Option Project :=
  all_projects.find? (fun p => p.id == i)

/-- Embedding of `find_project_path(project, all_projects, path)`: prepends
the project's name to the accumulated path and recurses on the parent.  The
source recursion has no cycle guard; `fuel` bounds the number of parent
steps taken, so the source call terminates with a value exactly when some
fuel returns `some`.  A `none` result models either exhausted fuel (the
unbounded recursion of the source) or a `KeyError` on a dangling
`parent_id`. -/
def find_project_path (fuel : Nat) (project : Project) (all_projects : List Project)
    (path : Str) : Option Str :=
  let path := if path.length = 0 then project.name else project.name ++ slash :: path
  match project.parent_id with
  | none => some path
  | some pid =>
    match fuel with
    | 0 => none
    | fuel + 1 =>
      match lookupProject all_projects pid with
      | none => none
      | some parent => find_project_path fuel parent all_projects path

/-- The chain of projects from the root down to `project`, following
`parent_id` links exactly as `find_project_path` does (same fuel, same
lookups): `find_project_path` succeeds precisely when this chain exists,
and the path it returns is the slash-join of this chain's names. -/
def rootChain (fuel : Nat) (project : Project) (all_projects : List Project) :
    Option (List Project) :=
  match project.parent_id with
  | none => some [project]
  | some pid =>
    match fuel with
    | 0 => none
    | fuel + 1 =>
      match lookupProject all_projects pid with
      | none => none
      | some parent => (rootChain fuel parent all_projects).map (· ++ [project])

/-- Embedding of `find_projects_to_update(project, all_projects,
projects_to_update)`: the list of projects the source appends to the shared
accumulator, in the source's pre-order (the project itself, then the
subtrees of its children in arena order).  The source recursion is bounded
here by `fuel` levels of children; on a forest any fuel of at least the
number of projects reproduces the source's result. -/
def find_projects_to_update : Nat → Project → List Project → List Project
  | 0, project, _ => [project]
  | fuel + 1, project, all_projects =>
    project :: ((all_projects.filter fun child => child.parent_id == some project.id).map
      fun child => find_projects_to_update fuel child all_projects).flatten

/-- Embedding of `find_project_ids_to_update(all_projects, project)`: the
ids of the collected projects (the source's Python `set` is modelled as the
list of ids, membership being what the set is used for). -/
def find_project_ids_to_update (fuel : Nat) (all_projects : List Project)
    (project : Project) : List Nat :=
  (find_projects_to_update fuel project all_projects).map Project.id

/-- A workbook as returned by the server: unique id, name, the id of the
project holding it, and that project's display name (used for report
labels). -/
structure Workbook where
  id : Nat
  name : Str
  project_id : Nat
  project_name : Str
deriving DecidableEq, Repr

/-- The target of a task: the id of the targeted content and its type tag
(`"workbook"` or `"datasource"`). -/
structure TaskTarget where
  id : Nat
  type : Str
deriving DecidableEq, Repr

/-- The schedule snapshot embedded in a task (`task.schedule_item`). -/
structure ScheduleRef where
  id : Nat
  name : Str
deriving DecidableEq, Repr

/-- A scheduled task (the source's `TaskItem`): unique id, optional target
(`None` when orphaned) and the embedded schedule snapshot. -/
structure TaskItem where
  id : Nat
  target : Option TaskTarget
  schedule_item : ScheduleRef
deriving DecidableEq, Repr

/-- A schedule: id and (not necessarily unique) name. -/
structure Schedule where
  id : Nat
  name : Str
deriving DecidableEq, Repr

/-- Assignment `d[k] = v` on an insertion-ordered Python dict modelled as an
association list: an existing key keeps its position and gets the new value,
a new key is appended. -/
def dictInsert {α : Type} (m : List (Nat × α)) (k : Nat) (v : α) : List (Nat × α) :=
  match m with
  | [] => [(k, v)]
  | (k', v') :: rest =>
    if k' = k then (k', v) :: rest else (k', v') :: dictInsert rest k v

/-- Lookup `d[k]` / `k in d` on the same dict model. -/
def dictFind? {α : Type} (m : List (Nat × α)) (k : Nat) : Option α :=
  (m.find? (fun e => e.1 == k)).map (·.2)

/-- The workbook name of one line of a path list: the last `/`-separated
component, as `workbook_path.split('/')[-1]`. -/
def pathLeaf (wp : Str) : Str :=
  (splitOnChar slash wp).getLastD []

/-- The project path of one line of a path list: the `/`-join of all but the
last component, as `'/'.join(workbook_path.split('/')[:-1])`. -/
def pathStem (wp : Str) : Str :=
  joinWith slash (splitOnChar slash wp).dropLast

/-- Appending a value to a key's list in the `defaultdict(list)` used by
`parse_workbook_path`: an existing key keeps its position, a new key is
appended with a singleton list. -/
def addToMapping (m : List (Str × List Str)) (key : Str) (v : Str) :
    List (Str × List Str) :=
  match m with
  | [] => [(key, [v])]
  | (k, vs) :: rest =>
    if k = key then (k, vs ++ [v]) :: rest else (k, vs) :: addToMapping rest key v

/-- Embedding of `parse_workbook_path(file_path)` after the file has been
read and its lines stripped (`sanitize_workbook_list` is input plumbing):
groups the path lines by workbook name, mapping each name to the list of
its requested project paths in input order. -/
def parse_workbook_path (workbook_paths : List Str) : List (Str × List Str) :=
  workbook_paths.foldl (fun m wp => addToMapping m (pathLeaf wp) (pathStem wp)) []

/-- Construction of Python's `set(workbook_paths[:])`, modelled as the list
of distinct elements in first-occurrence order (iteration order over the
set is unspecified in the source and nothing proved below depends on it). -/
def distinctList : List Str → List Str
  | [] => []
  | s :: rest => if s ∈ rest then distinctList rest else s :: distinctList rest

/-- An element removal `s.remove(x)` on the set model: `none` models the
`KeyError` Python raises when the element is absent. -/
def setRemove (s : List Str) (x : Str) : Option (List Str) :=
  if x ∈ s then some (s.erase x) else none

/-- The project path computed for a returned workbook:
`find_project_path(all_projects[workbook.project_id], all_projects, "")`.
`none` models the dict `KeyError` on a dangling `project_id` as well as a
non-terminating path walk. -/
def resolvedPath (fuel : Nat) (all_projects : List Project) (workbook : Workbook) :
    Option Str :=
  match lookupProject all_projects workbook.project_id with
  | none => none
  | some proj => find_project_path fuel proj all_projects []

/-- One iteration of the inner loop of `get_workbooks_from_paths`: resolve
the workbook's project path; if it is one of the requested paths for this
name, remove it from the outstanding set and store the workbook under its
id.  An unresolvable project and a failing `remove` (two returned workbooks
on the same path) are the uncaught exceptions of the source. -/
def locateStep (fuel : Nat) (all_projects : List Project) (workbook_paths : List Str)
    (st : List Str × List (Nat × Workbook)) (workbook : Workbook) :
    Except Unit (List Str × List (Nat × Workbook)) :=
  match resolvedPath fuel all_projects workbook with
  | none => .error ()
  | some path =>
    if path ∈ workbook_paths then
      match setRemove st.1 path with
      | none => .error ()
      | some remaining => .ok (remaining, dictInsert st.2 workbook.id workbook)
    else .ok st

/-- Processing of one `(workbook_name, workbook_paths)` group of
`get_workbooks_from_paths`: one filtered query for the name, then the inner
loop over the returned workbooks, then one diagnostic line per outstanding
path.  Returns the grown id-to-workbook mapping and this group's diagnostic
paths (each reported as `path + '/' + workbook_name`). -/
def locateGroup (fuel : Nat) (all_projects : List Project)
    (queryByName : Str → List Workbook) (mapping : List (Nat × Workbook))
    (workbook_name : Str) (workbook_paths : List Str) :
    Except Unit (List (Nat × Workbook) × List Str) := do
  let workbooks := queryByName workbook_name
  let st ← workbooks.foldlM (locateStep fuel all_projects workbook_paths)
    (distinctList workbook_paths, mapping)
  return (st.2, st.1.map (fun path => path ++ slash :: workbook_name))

/-- Embedding of `get_workbooks_from_paths(server, args)`: the project arena
and the per-name query results are explicit oracles, the path list is the
sanitized input.  Returns the id-to-workbook mapping, the diagnostic lines
for unmatched paths, and the list of workbook names a filtered query was
issued for, in order. -/
def get_workbooks_from_paths (fuel : Nat) (all_projects : List Project)
    (queryByName : Str → List Workbook) (path_list : List Str) :
    Except Unit (List (Nat × Workbook) × List Str × List Str) := do
  let groups := parse_workbook_path path_list
  let out ← groups.foldlM
    (fun (acc : List (Nat × Workbook) × List Str) group => do
      let r ← locateGroup fuel all_projects queryByName acc.1 group.1 group.2
      return (r.1, acc.2 ++ r.2))
    ([], [])
  return (out.1, out.2, groups.map (·.1))

/-- The loop of `find_schedule`: first schedule whose name equals the
queried name. -/
def find_schedule_loop (schedule_name : Str) : List Schedule → Option Schedule
  | [] => none
  | s :: rest =>
    if schedule_name = s.name then some s else find_schedule_loop schedule_name rest

/-- Embedding of `find_schedule(server, schedule_name)`: `None` for a `None`
query, otherwise the first schedule of the listing whose name equals the
queried name, `None` when none matches. -/
def find_schedule (schedules : List Schedule) (schedule_name : Option Str) :
    Option Schedule :=
  match schedule_name with
  | none => none
  | some n => find_schedule_loop n schedules

/-- A server mutation issued by the attach/detach workflows. -/
inductive Effect where
  | deleteTask (task_id : Nat)
  | addToSchedule (schedule_id : Nat) (workbook_id : Nat)
deriving DecidableEq, Repr

/-- The target type tag `'workbook'`. -/
def workbookTypeTag : Str := ['w', 'o', 'r', 'k', 'b', 'o', 'o', 'k']

/-- Construction of `workbook_id_to_task` in
`add_to_materialized_views_schedule`: tasks whose target type is
`'workbook'`, keyed by target id (a later task overwrites an earlier one,
as dict assignment does).  A task with a `None` target is the source's
uncaught `AttributeError` at `task.target.type`. -/
def build_workbook_id_to_task (tasks : List TaskItem) :
    Except Unit (List (Nat × TaskItem)) :=
  tasks.foldlM
    (fun m task =>
      match task.target with
      | none => .error ()
      | some tgt =>
        if tgt.type = workbookTypeTag then .ok (dictInsert m tgt.id task)
        else .ok m)
    []

/-- One iteration of the loop of `add_to_materialized_views_schedule` over
`workbook_id_to_workbook.values()`.  `confirm` is the interactive yes/no
answer for this workbook, `deleteRes`/`addRes` say whether the server
accepts a given delete/add call (`false` models a `ServerResponseError`,
which the loop catches and reports).  Returns the mutations issued for this
workbook in order, the report rows added, and the increment of
`num_added`. -/
def attach_one (deleteRes : Nat → Bool) (addRes : Nat → Nat → Bool)
    (confirm : Workbook → Bool) (schedule : Schedule)
    (workbook_id_to_task : List (Nat × TaskItem)) (workbook : Workbook) :
    List Effect × List (Str × Str) × Nat :=
  let label := workbook.project_name ++ slash :: workbook.name
  match dictFind? workbook_id_to_task workbook.id with
  | some task =>
    if task.schedule_item.id = schedule.id then
      ([], [(label, schedule.name)], 0)
    else if ¬ confirm workbook then
      ([], [(label, task.schedule_item.name)], 0)
    else if ¬ deleteRes task.id then
      ([Effect.deleteTask task.id], [], 0)
    else if ¬ addRes schedule.id workbook.id then
      ([Effect.deleteTask task.id, Effect.addToSchedule schedule.id workbook.id], [], 0)
    else
      ([Effect.deleteTask task.id, Effect.addToSchedule schedule.id workbook.id],
        [(label, schedule.name)], 1)
  | none =>
    if ¬ addRes schedule.id workbook.id then
      ([Effect.addToSchedule schedule.id workbook.id], [], 0)
    else
      ([Effect.addToSchedule schedule.id workbook.id], [(label, schedule.name)], 1)

/-- Embedding of `add_to_materialized_views_schedule(server, tasks,
schedule, workbook_id_to_workbook)`: early `None` returns, the task-map
construction restricted to workbook targets, then the per-workbook loop.
Returns all mutations issued in order, the report rows and `num_added`. -/
def add_to_materialized_views_schedule (deleteRes : Nat → Bool)
    (addRes : Nat → Nat → Bool) (confirm : Workbook → Bool)
    (tasks : Option (List TaskItem)) (schedule : Option Schedule)
    (workbooks : Option (List Workbook)) :
    Except Unit (List Effect × List (Str × Str) × Nat) := do
  match schedule, workbooks with
  | none, _ => return ([], [], 0)
  | _, none => return ([], [], 0)
  | some schedule, some workbooks =>
    let workbook_id_to_task ←
      match tasks with
      | none => pure []
      | some tasks => build_workbook_id_to_task tasks
    return workbooks.foldl
      (fun acc workbook =>
        let r := attach_one deleteRes addRes confirm schedule workbook_id_to_task workbook
        (acc.1 ++ r.1, acc.2.1 ++ r.2.1, acc.2.2 + r.2.2))
      ([], [], 0)

/-- One iteration of the loop of `remove_materialized_views_tasks`: a task
whose target id is a key of the workbook map gets a delete call — counted
when the server accepts it, reported and skipped when it answers with a
`ServerResponseError` (`deleteRes` false).  The accumulator is the ids a
delete was attempted for and `num_removed`; a `None` target is the
source's uncaught `AttributeError` at `task.target.id`. -/
def remove_step (deleteRes : Nat → Bool) (wbm : List (Nat × Workbook))
    (acc : List Nat × Nat) (task : TaskItem) : Except Unit (List Nat × Nat) :=
  match task.target with
  | none => .error ()
  | some tgt =>
    if (dictFind? wbm tgt.id).isSome then
      if deleteRes task.id then .ok (acc.1 ++ [task.id], acc.2 + 1)
      else .ok (acc.1 ++ [task.id], acc.2)
    else .ok acc

/-- Embedding of `remove_materialized_views_tasks(server, tasks,
workbook_id_to_workbook)`: after the early returns for a missing or empty
workbook set or task list, every task whose target id is a key of the
workbook map gets a delete call; a `ServerResponseError` (`deleteRes`
false) is caught and the loop continues.  Returns the task ids a delete was
attempted for, in order, and `num_removed`.  A task with a `None` target is
the source's uncaught `AttributeError`. -/
def remove_materialized_views_tasks (deleteRes : Nat → Bool)
    (tasks : Option (List TaskItem))
    (workbook_id_to_workbook : Option (List (Nat × Workbook))) :
    Except Unit (List Nat × Nat) :=
  match workbook_id_to_workbook with
  | none => .ok ([], 0)
  | some wbm =>
    if wbm.length = 0 then .ok ([], 0)
    else
      match tasks with
      | none => .ok ([], 0)
      | some ts =>
        if ts.length = 0 then .ok ([], 0)
        else ts.foldlM (remove_step deleteRes wbm) ([], 0)

/-- An HTTP request issued by the tasks endpoint, as (method, url pieces). -/
inductive HttpReq where
  | get (url : List Str)
  | delete (url : List Str)
deriving DecidableEq, Repr

/-- Python truthiness of an optional string: `None` and `""` are falsy. -/
def falsy (s : Option Str) : Bool :=
  match s with
  | none => true
  | some v => v.isEmpty

/-- Embedding of `Tasks.get_by_id(task_id)`: a falsy id raises `ValueError`
("No Task ID provided") before any request; otherwise exactly one GET on
`baseurl/task_id` is issued.  The request appears only in the `ok` result,
so an `error` outcome issues no request. -/
def tasks_get_by_id (baseurl : Str) (task_id : Option Str) : Except Unit HttpReq :=
  if falsy task_id then .error ()
  else .ok (.get [baseurl, task_id.getD []])

/-- Embedding of `Tasks.delete_task_type_and_id(task_type, task_id)`: a
falsy task id, then a falsy task type, raise `ValueError` before any
request; otherwise exactly one DELETE on `baseurl/task_type/task_id` is
issued. -/
def tasks_delete_task_type_and_id (baseurl : Str) (task_type task_id : Option Str) :
    Except Unit HttpReq :=
  if falsy task_id then .error ()
  else if falsy task_type then .error ()
  else .ok (.delete [baseurl, task_type.getD [], task_id.getD []])

/-- The parsed command-line arguments the schedule commands read.  Numeric
arguments are modelled after Python's `float(...)`/`int(...)` conversions
as rationals and integers (a non-numeric string, which would raise in
`float`, is out of scope); `store_const` flags are booleans
(`is not None`); `--weekly-interval` carries its day list. -/
structure Args where
  start_hour : Option ℚ
  start_minute : Option ℚ
  end_hour : Option ℚ
  end_minute : Option ℚ
  daily_interval : Bool
  weekly_interval : Option (List Str)
  monthly_interval : Option ℤ
  hourly_interval : Option Str
  add_to_schedule : Option Str
  remove_from_schedule : Bool
  create_schedule : Option Str
  show_schedules : Bool
  name_list : Option Str
  path_list : Option Str
  workbook_path : Option Str
deriving DecidableEq

/-- The start-time acceptance test at the head of `verify_time_arguments`:
`args.start_hour is None or not (0 <= float(args.start_hour) <= 23) or
args.start_minute is None or not (0 <= float(args.start_minute) <= 59)`
rejects, so acceptance is both fields present, hour in [0, 23] and minute
in [0, 59]. -/
def startTimeOk (args : Args) : Bool :=
  match args.start_hour, args.start_minute with
  | some h, some m => decide (0 ≤ h ∧ h ≤ 23 ∧ 0 ≤ m ∧ m ≤ 59)
  | _, _ => false

/-- Embedding of `verify_time_arguments(args)`: the start-time test, then
the four interval kinds in source order (daily, weekly, monthly, hourly),
each failing when another kind was already selected, monthly additionally
checking 1 ≤ day ≤ 31 and hourly checking the end time; true exactly when
one kind was selected. -/
def verify_time_arguments (args : Args) : Bool := Id.run do
  if ¬ startTimeOk args then return false
  let mut selected : Option Nat := none
  if args.daily_interval then
    selected := some 0
  if args.weekly_interval.isSome then
    if selected.isSome then return false
    selected := some 1
  if let some mi := args.monthly_interval then
    if selected.isSome then return false
    if ¬ (1 ≤ mi ∧ mi ≤ 31) then return false
    selected := some 2
  if args.hourly_interval.isSome then
    if selected.isSome then return false
    match args.end_hour, args.end_minute with
    | some eh, some em =>
      if ¬ (0 ≤ eh ∧ eh ≤ 23 ∧ 0 ≤ em ∧ em ≤ 59) then return false
      selected := some 3
    | _, _ => return false
  return selected.isSome

/-- Embedding of `assert_schedule_action_options_valid(args)`: at most one
of the four schedule actions, workbooks required for add/remove, and an
interval kind required for create. -/
def assert_schedule_action_options_valid (args : Args) : Bool :=
  if 1 < (List.count true
      [args.add_to_schedule.isSome, args.remove_from_schedule,
        args.create_schedule.isSome, args.show_schedules]) then
    false
  else if (args.add_to_schedule.isSome || args.remove_from_schedule) &&
      (args.name_list.isNone && args.path_list.isNone && args.workbook_path.isNone) then
    false
  else if args.create_schedule.isSome &&
      (args.weekly_interval.isNone && ¬ args.daily_interval &&
        args.monthly_interval.isNone && args.hourly_interval.isNone) then
    false
  else true

/-- A network interaction of `create_materialized_view_schedule`: the
`sign_in` request, or the schedule-creation request for one interval kind
(0 hourly, 1 daily, 2 weekly, 3 monthly). -/
inductive NetEffect where
  | signIn
  | createSchedule (kind : Nat)
deriving DecidableEq, Repr

/-- Embedding of `create_materialized_view_schedule(args, password,
site_content_url)`: failed validation returns `False` with no network
interaction; otherwise `sign_in` is issued and the interval kind chosen in
source order (hourly, daily, weekly, else monthly) is created.  A weekly
interval with an empty day list reaches `TSC.WeeklyInterval(start_time)`
which — modelled from the spec: "Weekly requires one or more weekday
names", the interval classes are not under the staged sources — raises an
uncaught `ValueError` after sign-in and before any creation request
(`none` result). -/
def create_materialized_view_schedule (args : Args) : Option Bool × List NetEffect :=
  if ¬ verify_time_arguments args then (some false, [])
  else if args.hourly_interval.isSome then
    (some true, [NetEffect.signIn, NetEffect.createSchedule 0])
  else if args.daily_interval then
    (some true, [NetEffect.signIn, NetEffect.createSchedule 1])
  else if args.weekly_interval.isSome then
    match args.weekly_interval with
    | some [] => (none, [NetEffect.signIn])
    | _ => (some true, [NetEffect.signIn, NetEffect.createSchedule 2])
  else (some true, [NetEffect.signIn, NetEffect.createSchedule 3])

/-- The first project in arena order with the given parent and name, used
to restate the spec's "re-walking children by name" along a path. -/
def childByName (all_projects : List Project) (parent : Option Nat) (n : Str) :
    Option Project :=
  all_projects.find? (fun p => decide (p.parent_id = parent ∧ p.name = n))

/-- Walking a root-first list of names down the project tree: each step
descends to the child (of the current project) carrying the next name,
starting from the roots.  Returns the project the full name list leads
to. -/
def walkFrom (all_projects : List Project) (parent : Option Nat) :
    List Str → Option Project
  | [] => none
  | [n] => childByName all_projects parent n
  | n :: rest =>
    match childByName all_projects parent n with
    | none => none
    | some p => walkFrom all_projects (some p.id) rest

/-- A root-first ancestor chain inside an arena: every element is in the
arena, the first element's parent is `parent`, and each element is the
parent of the next. -/
inductive ChainFrom (all_projects : List Project) : Option Nat → List Project → Prop
  | single (p : Project) (par : Option Nat) :
      p ∈ all_projects → p.parent_id = par → ChainFrom all_projects par [p]
  | cons (p : Project) (par : Option Nat) (rest : List Project) :
      p ∈ all_projects → p.parent_id = par → ChainFrom all_projects (some p.id) rest →
      ChainFrom all_projects par (p :: rest)

/-- A `CreateSchedule(Weekly, days=[])` invocation with a valid start
time, used to refute C4 as stated: validation passes on an empty weekday
list. -/
def weeklyEmptyArgs : Args :=
  { start_hour := some 8, start_minute := some 30, end_hour := some 0, end_minute := some 0,
    daily_interval := false, weekly_interval := some [], monthly_interval := none,
    hourly_interval := none, add_to_schedule := none, remove_from_schedule := false,
    create_schedule := some ['s'], show_schedules := false,
    name_list := none, path_list := none, workbook_path := none }

/-- Whether a task's target id is a key of the requested workbook map — the
membership test `task.target.id in workbook_id_to_workbook` of the detach
loop. -/
def targetMatched (wbm : List (Nat × Workbook)) (t : TaskItem) : Bool :=
  match t.target with
  | none => false
  | some tgt => (dictFind? wbm tgt.id).isSome

/-- A two-project parent cycle: A's parent is B and B's parent is A. -/
def cycA : Project := ⟨1, ['A'], some 2⟩

/-- The other half of the two-project cycle. -/
def cycB : Project := ⟨2, ['B'], some 1⟩

/-- An arena containing only the two-project cycle. -/
def cycArena : List Project := [cycA, cycB]

/-- A root project whose name contains the separator. -/
def cexSlashRoot : Project := ⟨1, ['a', '/', 'b'], none⟩

/-- A root with an ordinary name, for the empty-name counterexample. -/
def cexEmptyRoot : Project := ⟨1, ['r'], none⟩

/-- A child of `cexEmptyRoot` whose name is the empty string. -/
def cexEmptyChild : Project := ⟨2, [], some 1⟩

/-- First of two distinct root projects sharing one name. -/
def cexDupRootA : Project := ⟨1, ['a'], none⟩

/-- Second of two distinct root projects sharing one name. -/
def cexDupRootB : Project := ⟨2, ['a'], none⟩

/-- A child of the second duplicate root. -/
def cexDupChild : Project := ⟨3, ['b'], some 2⟩

/-- Whether a returned workbook's resolved project path is one of the
requested paths of its group — the acceptance test of the inner loop of
`get_workbooks_from_paths`. -/
def pathMatched (fuel : Nat) (all_projects : List Project) (workbook_paths : List Str)
    (wb : Workbook) : Prop :=
  ∃ p, resolvedPath fuel all_projects wb = some p ∧ p ∈ workbook_paths

/-- A two-project arena (root `D`, child `S`) for the C2 witness. -/
def wpProjects : List Project := [⟨1, ['D'], none⟩, ⟨2, ['S'], some 1⟩]

/-- The one workbook `R` living in project `S` for the C2 witness. -/
def wpWb : Workbook := ⟨100, ['R'], 2, ['S']⟩

/-- A server answering every filtered workbook query with `[wpWb]`. -/
def wpQuery : Str → List Workbook := fun _ => [wpWb]

/-- The input path list `D/S/R`, `D/M/Q` of the C2 witness: the first
resolves to `wpWb`, the second matches nothing. -/
def wpPaths : List Str := [['D', '/', 'S', '/', 'R'], ['D', '/', 'M', '/', 'Q']]

theorem find_schedule_loop_eq_some {n : Str} :
    ∀ {l : List Schedule} {s : Schedule}, find_schedule_loop n l = some s →
      ∃ l₁ l₂, l = l₁ ++ s :: l₂ ∧ s.name = n ∧ ∀ t ∈ l₁, t.name ≠ n := by
  intro l
  induction l with
  | nil => intro s h; simp [find_schedule_loop] at h
  | cons a rest ih =>
    intro s h
    rw [find_schedule_loop] at h
    by_cases hn : n = a.name
    · simp [hn] at h
      exact ⟨[], rest, by simp [h], by simp [← h, hn], by simp⟩
    · simp [hn] at h
      obtain ⟨l₁, l₂, rfl, hname, hfirst⟩ := ih h
      exact ⟨a :: l₁, l₂, rfl, hname, by
        intro t ht
        rcases List.mem_cons.mp ht with rfl | ht
        · exact fun hc => hn hc.symm
        · exact hfirst t ht⟩

theorem find_schedule_loop_eq_none {n : Str} :
    ∀ {l : List Schedule}, (∀ t ∈ l, t.name ≠ n) → find_schedule_loop n l = none := by
  intro l
  induction l with
  | nil => intro _; rfl
  | cons a rest ih =>
    intro h
    rw [find_schedule_loop]
    have ha : n ≠ a.name := fun hc => h a (by simp) hc.symm
    simp [ha]
    exact ih fun t ht => h t (by simp [ht])

theorem find_schedule_loop_first (n : Str) :
    ∀ (l₁ : List Schedule) (s : Schedule) (l₂ : List Schedule),
      s.name = n → (∀ t ∈ l₁, t.name ≠ n) →
      find_schedule_loop n (l₁ ++ s :: l₂) = some s := by
  intro l₁
  induction l₁ with
  | nil =>
    intro s l₂ hname _
    rw [List.nil_append, find_schedule_loop]
    rw [if_pos hname.symm]
  | cons a rest ih =>
    intro s l₂ hname hfirst
    rw [List.cons_append, find_schedule_loop]
    have ha : n ≠ a.name := fun h => hfirst a (by simp) h.symm
    rw [if_neg ha]
    exact ih s l₂ hname (fun t ht => hfirst t (by simp [ht]))

/-- C9: `find_schedule` returns `None` for a `None` query; on a listing that
contains a schedule with the queried name — written as `l₁ ++ s :: l₂` with
`s` the first such schedule, every schedule of `l₁` named otherwise — it
returns exactly that first match `s`; conversely any returned schedule is
the first match of the listing; and when no schedule in the listing has the
queried name it returns `None`. -/
theorem find_schedule_returns_first_match :
    (∀ schedules : List Schedule, find_schedule schedules none = none) ∧
    (∀ (l₁ : List Schedule) (s : Schedule) (l₂ : List Schedule) (n : Str),
      s.name = n → (∀ t ∈ l₁, t.name ≠ n) →
      find_schedule (l₁ ++ s :: l₂) (some n) = some s) ∧
    (∀ (schedules : List Schedule) (n : Str) (s : Schedule),
      find_schedule schedules (some n) = some s →
      ∃ l₁ l₂, schedules = l₁ ++ s :: l₂ ∧ s.name = n ∧ ∀ t ∈ l₁, t.name ≠ n) ∧
    (∀ (schedules : List Schedule) (n : Str),
      (∀ t ∈ schedules, t.name ≠ n) → find_schedule schedules (some n) = none) := by
  refine ⟨fun _ => rfl, ?_, ?_, ?_⟩
  · intro l₁ s l₂ n hname hfirst
    exact find_schedule_loop_first n l₁ s l₂ hname hfirst
  · intro schedules n s h
    exact find_schedule_loop_eq_some h
  · intro schedules n h
    exact find_schedule_loop_eq_none h

/-- C10: a falsy (missing or empty) task id makes `Tasks.get_by_id` raise
`ValueError`, and a falsy task id or task type makes
`Tasks.delete_task_type_and_id` raise `ValueError`; in the embedding the
single HTTP request of each endpoint exists only in the `ok` result, so an
`error` outcome issues no request. -/
theorem tasks_endpoint_falsy_raises :
    (∀ (baseurl : Str) (task_id : Option Str), falsy task_id = true →
      tasks_get_by_id baseurl task_id = Except.error ()) ∧
    (∀ (baseurl : Str) (task_type task_id : Option Str),
      falsy task_id = true ∨ falsy task_type = true →
      tasks_delete_task_type_and_id baseurl task_type task_id = Except.error ()) := by
  constructor
  · intro baseurl task_id h
    simp [tasks_get_by_id, h]
  · intro baseurl task_type task_id h
    rcases h with h | h
    · simp [tasks_delete_task_type_and_id, h]
    · rw [tasks_delete_task_type_and_id]
      rcases hid : falsy task_id with _ | _ <;> simp [h]

/-- C3: with the start minute drawn from the CLI's `choices` set
{0, 15, 30, 45}, the start time passes validation exactly when the start
hour is in [0, 23] and the minute is in that set (the function itself
checks minute in [0, 59]; the `choices` restriction makes the two
conditions coincide); and whenever the start-time check fails,
`verify_time_arguments` fails and no network interaction at all is issued
by `create_materialized_view_schedule`. -/
theorem start_time_validation :
    (∀ (args : Args) (h m : ℚ), args.start_hour = some h → args.start_minute = some m →
      (m = 0 ∨ m = 15 ∨ m = 30 ∨ m = 45) →
      (startTimeOk args = true ↔
        (0 ≤ h ∧ h ≤ 23 ∧ (m = 0 ∨ m = 15 ∨ m = 30 ∨ m = 45)))) ∧
    (∀ args : Args, startTimeOk args = false →
      verify_time_arguments args = false ∧
      (create_materialized_view_schedule args).2 = []) := by
  constructor
  · intro args h m hh hm hchoice
    rw [startTimeOk, hh, hm]
    constructor
    · intro hd
      have hd' := of_decide_eq_true hd
      exact ⟨hd'.1, hd'.2.1, hchoice⟩
    · intro hc
      apply decide_eq_true
      refine ⟨hc.1, hc.2.1, ?_, ?_⟩ <;> rcases hchoice with rfl | rfl | rfl | rfl <;> norm_num
  · intro args h
    have hv : verify_time_arguments args = false := by
      simp [verify_time_arguments, h, Id.run]
    exact ⟨hv, by simp [create_materialized_view_schedule, hv]⟩

/-- C4, counterexample: on a weekly invocation with an empty weekday list
both validation functions pass and network interaction is issued, so
validation does not fail before a network request as claimed. -/
theorem weekly_empty_days_not_rejected :
    verify_time_arguments weeklyEmptyArgs = true ∧
    assert_schedule_action_options_valid weeklyEmptyArgs = true ∧
    (create_materialized_view_schedule weeklyEmptyArgs).2 ≠ [] := by decide

/-- C4, amended: the validation functions test only for the presence of
`--weekly-interval`, not for a non-empty day list (the one-or-more-days
requirement lives in the CLI parser's `nargs='+'`); with an empty day list
and a valid start time both checks pass, sign-in is issued, and the run
then dies on the `ValueError` of the weekly-interval constructor without
issuing a creation request. -/
theorem weekly_empty_days_passes_validation (args : Args)
    (hw : args.weekly_interval = some []) (hd : args.daily_interval = false)
    (hm : args.monthly_interval = none) (hh : args.hourly_interval = none)
    (hst : startTimeOk args = true) (hcs : args.create_schedule.isSome = true)
    (ha : args.add_to_schedule = none) (hr : args.remove_from_schedule = false)
    (hs : args.show_schedules = false) :
    verify_time_arguments args = true ∧
    assert_schedule_action_options_valid args = true ∧
    create_materialized_view_schedule args = (none, [NetEffect.signIn]) := by
  have hv : verify_time_arguments args = true := by
    simp [verify_time_arguments, hst, hd, hw, hm, hh, Id.run]
  refine ⟨hv, ?_, ?_⟩
  · simp [assert_schedule_action_options_valid, ha, hr, hs, hcs, hw]
  · simp [create_materialized_view_schedule, hv, hh, hd, hw]

/-- C4, witness: the amended statement instantiated at the concrete
empty-weekday invocation. -/
theorem weekly_empty_days_passes_validation_witness :
    verify_time_arguments weeklyEmptyArgs = true ∧
    assert_schedule_action_options_valid weeklyEmptyArgs = true ∧
    create_materialized_view_schedule weeklyEmptyArgs = (none, [NetEffect.signIn]) :=
  weekly_empty_days_passes_validation weeklyEmptyArgs rfl rfl rfl rfl (by decide) rfl rfl
    rfl rfl

theorem self_mem_find_projects_to_update (fuel : Nat) (project : Project)
    (all_projects : List Project) :
    project ∈ find_projects_to_update fuel project all_projects := by
  cases fuel <;> simp [find_projects_to_update]

theorem find_projects_to_update_closure :
    ∀ (fuel : Nat) (project : Project) (all_projects : List Project),
      ∀ p ∈ find_projects_to_update fuel project all_projects,
        p = project ∨ ∃ q ∈ find_projects_to_update fuel project all_projects,
          p.parent_id = some q.id := by
  intro fuel
  induction fuel with
  | zero =>
    intro project all_projects p hp
    simp [find_projects_to_update] at hp
    exact Or.inl hp
  | succ n ih =>
    intro project all_projects p hp
    rw [find_projects_to_update] at hp
    rcases List.mem_cons.mp hp with h | h
    · exact Or.inl h
    · obtain ⟨l, hl, hpl⟩ := List.mem_flatten.mp h
      obtain ⟨child, hchild, rfl⟩ := List.mem_map.mp hl
      have hcp : child.parent_id = some project.id := by
        have := (List.mem_filter.mp hchild).2
        simpa using this
      rcases ih child all_projects p hpl with rfl | ⟨q, hq, hpar⟩
      · refine Or.inr ⟨project, ?_, hcp⟩
        rw [find_projects_to_update]
        exact List.mem_cons_self _ _
      · refine Or.inr ⟨q, ?_, hpar⟩
        rw [find_projects_to_update]
        exact List.mem_cons_of_mem _
          (List.mem_flatten.mpr ⟨_, List.mem_map_of_mem _ hchild, hq⟩)

/-- C6: the collection of `find_projects_to_update` always contains the
root project itself, and every collected project is the root or has its
parent among the collected projects (no orphaned descendant); accordingly
the id set of `find_project_ids_to_update` contains the root's id.  This
holds for every fuel bound on the source recursion, in particular for the
bound under which the recursion reproduces the source on a forest. -/
theorem descendant_closure :
    (∀ (fuel : Nat) (project : Project) (all_projects : List Project),
      project ∈ find_projects_to_update fuel project all_projects) ∧
    (∀ (fuel : Nat) (project : Project) (all_projects : List Project),
      ∀ p ∈ find_projects_to_update fuel project all_projects,
        p = project ∨ ∃ q ∈ find_projects_to_update fuel project all_projects,
          p.parent_id = some q.id) ∧
    (∀ (fuel : Nat) (project : Project) (all_projects : List Project),
      project.id ∈ find_project_ids_to_update fuel all_projects project) := by
  refine ⟨self_mem_find_projects_to_update, find_projects_to_update_closure, ?_⟩
  intro fuel project all_projects
  exact List.mem_map_of_mem Project.id
    (self_mem_find_projects_to_update fuel project all_projects)

theorem remove_foldlM_eq (deleteRes : Nat → Bool) (wbm : List (Nat × Workbook)) :
    ∀ (ts : List TaskItem) (acc : List Nat × Nat),
      (∀ t ∈ ts, t.target.isSome = true) →
      ts.foldlM (remove_step deleteRes wbm) acc =
        Except.ok (acc.1 ++ (ts.filter (targetMatched wbm)).map TaskItem.id,
          acc.2 +
            ((ts.filter (targetMatched wbm)).filter (fun t => deleteRes t.id)).length) := by
  intro ts
  induction ts with
  | nil => intro acc _; simp [pure, Except.pure]
  | cons t rest ih =>
    intro acc h
    obtain ⟨tgt, htgt⟩ := Option.isSome_iff_exists.mp (h t (by simp))
    have hrest : ∀ x ∈ rest, x.target.isSome = true := fun x hx => h x (by simp [hx])
    have hstep : remove_step deleteRes wbm acc t =
        if targetMatched wbm t then
          (if deleteRes t.id then Except.ok (acc.1 ++ [t.id], acc.2 + 1)
           else Except.ok (acc.1 ++ [t.id], acc.2))
        else Except.ok acc := by
      simp [remove_step, targetMatched, htgt]
    by_cases hm : targetMatched wbm t = true
    · by_cases hd : deleteRes t.id = true
      · simp only [List.foldlM_cons, hstep, hm, if_true, hd, bind, Except.bind,
          ih _ hrest, List.filter_cons, hd]
        simp [hm, hd, Nat.add_assoc, Nat.add_comm, Nat.add_left_comm]
      · simp only [List.foldlM_cons, hstep, hm, if_true, hd, bind, Except.bind,
          ih _ hrest, List.filter_cons]
        simp [hm, hd]
    · simp only [List.foldlM_cons, hstep, hm, if_false, bind, Except.bind,
        ih _ hrest, List.filter_cons]
      simp [hm]

/-- C8: on a task listing whose tasks all carry a target, the detach pass
returns normally with exactly the tasks whose target id is in the requested
workbook map as attempted deletions, in listing order, and `num_removed`
counting just those of them the server accepted — a refused delete
(`ServerResponseError`) is skipped without stopping the loop, so later
tasks are still attempted and counted. -/
theorem detach_attempts_exactly_requested (deleteRes : Nat → Bool)
    (ts : List TaskItem) (wbm : List (Nat × Workbook))
    (h : ∀ t ∈ ts, t.target.isSome = true) :
    remove_materialized_views_tasks deleteRes (some ts) (some wbm) =
      Except.ok ((ts.filter (targetMatched wbm)).map TaskItem.id,
        ((ts.filter (targetMatched wbm)).filter (fun t => deleteRes t.id)).length) := by
  rw [remove_materialized_views_tasks]
  by_cases hw : wbm.length = 0
  · have hwnil : wbm = [] := List.length_eq_zero.mp hw
    have hfil : ts.filter (targetMatched wbm) = [] := by
      subst hwnil
      refine List.filter_eq_nil_iff.mpr ?_
      intro a _
      rcases hta : a.target with _ | tgt <;> simp [targetMatched, hta, dictFind?]
    simp [hw, hfil]
  · by_cases hts : ts.length = 0
    · have htsnil : ts = [] := List.length_eq_zero.mp hts
      subst htsnil
      simp [hw]
    · simpa [hw, hts] using remove_foldlM_eq deleteRes wbm ts ([], 0) h

/-- C8, witness: three tasks, the first two targeting requested workbooks,
the server refusing the first delete — both matching tasks are attempted,
one removal is counted, the third task is untouched. -/
theorem detach_attempts_exactly_requested_witness :
    remove_materialized_views_tasks (fun i => i == 2)
        (some [⟨1, some ⟨10, ['w']⟩, ⟨5, ['N']⟩⟩, ⟨2, some ⟨11, ['w']⟩, ⟨5, ['N']⟩⟩,
          ⟨3, some ⟨99, ['w']⟩, ⟨5, ['N']⟩⟩])
        (some [(10, ⟨10, ['a'], 1, ['p']⟩), (11, ⟨11, ['b'], 1, ['p']⟩)]) =
      Except.ok ([1, 2], 1) := by
  rw [detach_attempts_exactly_requested (fun i => i == 2) _ _ (by decide)]
  exact congrArg Except.ok (by decide)

theorem find_project_path_parent_none (fuel : Nat) (pi : Nat) (pn : Str)
    (all_projects : List Project) (path : Str) :
    find_project_path fuel ⟨pi, pn, none⟩ all_projects path =
      some (if path.length = 0 then pn else pn ++ slash :: path) := by
  cases fuel <;> rfl

theorem find_project_path_parent_some_zero (pi : Nat) (pn : Str) (pid : Nat)
    (all_projects : List Project) (path : Str) :
    find_project_path 0 ⟨pi, pn, some pid⟩ all_projects path = none := rfl

theorem find_project_path_parent_some (fuel : Nat) (pi : Nat) (pn : Str) (pid : Nat)
    (all_projects : List Project) (path : Str) :
    find_project_path (fuel + 1) ⟨pi, pn, some pid⟩ all_projects path =
      match lookupProject all_projects pid with
      | none => none
      | some parent => find_project_path fuel parent all_projects
          (if path.length = 0 then pn else pn ++ slash :: path) := rfl

theorem rootChain_parent_none (fuel : Nat) (pi : Nat) (pn : Str)
    (all_projects : List Project) :
    rootChain fuel ⟨pi, pn, none⟩ all_projects = some [⟨pi, pn, none⟩] := by
  cases fuel <;> rfl

theorem rootChain_parent_some_zero (pi : Nat) (pn : Str) (pid : Nat)
    (all_projects : List Project) :
    rootChain 0 ⟨pi, pn, some pid⟩ all_projects = none := rfl

theorem rootChain_parent_some (fuel : Nat) (pi : Nat) (pn : Str) (pid : Nat)
    (all_projects : List Project) :
    rootChain (fuel + 1) ⟨pi, pn, some pid⟩ all_projects =
      match lookupProject all_projects pid with
      | none => none
      | some parent => (rootChain fuel parent all_projects).map
          (· ++ [⟨pi, pn, some pid⟩]) := rfl

theorem find_project_path_isSome_of_rootChain :
    ∀ (fuel : Nat) (project : Project) (all_projects : List Project) (path : Str)
      (ps : List Project), rootChain fuel project all_projects = some ps →
      (find_project_path fuel project all_projects path).isSome = true := by
  intro fuel
  induction fuel with
  | zero =>
    intro project all_projects path ps h
    obtain ⟨pi, pn, pp⟩ := project
    rcases pp with _ | pid
    · rw [find_project_path_parent_none]; rfl
    · rw [rootChain_parent_some_zero] at h; exact absurd h (by simp)
  | succ n ih =>
    intro project all_projects path ps h
    obtain ⟨pi, pn, pp⟩ := project
    rcases pp with _ | pid
    · rw [find_project_path_parent_none]; rfl
    · rw [rootChain_parent_some] at h
      rw [find_project_path_parent_some]
      rcases hl : lookupProject all_projects pid with _ | parent
      · rw [hl] at h; simp at h
      · rw [hl] at h
        obtain ⟨qs, hqs, _⟩ : ∃ qs, rootChain n parent all_projects = some qs ∧
            qs ++ [⟨pi, pn, some pid⟩] = ps := by simpa using h
        exact ih parent all_projects _ qs hqs

/-- C5: `find_project_path` has no cycle guard — on the two-project cycle
the recursion never reaches its base case, whatever bound is put on the
number of parent steps, so the source recurses forever (CPython only kills
it through the interpreter-wide recursion limit, not through any
project-count bound as the claim describes); on input where the parent
chain does reach a root, the walk returns within fuel equal to the chain's
length, i.e. in O(depth) parent steps. -/
theorem find_project_path_cycle_behaviour :
    (∀ (fuel : Nat) (path : Str), find_project_path fuel cycA cycArena path = none) ∧
    (∀ (fuel : Nat) (path : Str), find_project_path fuel cycB cycArena path = none) ∧
    (∀ (fuel : Nat) (project : Project) (all_projects : List Project)
      (ps : List Project), rootChain fuel project all_projects = some ps →
      (find_project_path fuel project all_projects []).isSome = true) := by
  have key : ∀ fuel : Nat,
      (∀ path, find_project_path fuel cycA cycArena path = none) ∧
      (∀ path, find_project_path fuel cycB cycArena path = none) := by
    intro fuel
    induction fuel with
    | zero => exact ⟨fun path => rfl, fun path => rfl⟩
    | succ n ih =>
      constructor
      · intro path
        have step : find_project_path (n + 1) cycA cycArena path =
            find_project_path n cycB cycArena
              (if path.length = 0 then cycA.name else cycA.name ++ slash :: path) := rfl
        rw [step]
        exact ih.2 _
      · intro path
        have step : find_project_path (n + 1) cycB cycArena path =
            find_project_path n cycA cycArena
              (if path.length = 0 then cycB.name else cycB.name ++ slash :: path) := rfl
        rw [step]
        exact ih.1 _
  exact ⟨fun fuel => (key fuel).1, fun fuel => (key fuel).2,
    fun fuel project all_projects ps h =>
      find_project_path_isSome_of_rootChain fuel project all_projects [] ps h⟩

theorem mem_dictInsert {α : Type} :
    ∀ (m : List (Nat × α)) (k : Nat) (v : α), ∀ e ∈ dictInsert m k v,
      e ∈ m ∨ e = (k, v) := by
  intro m k v
  induction m with
  | nil => intro e he; simp [dictInsert] at he; exact Or.inr he
  | cons p rest ih =>
    intro e he
    rw [dictInsert] at he
    by_cases hk : p.1 = k
    · simp only [hk, if_true] at he
      rcases List.mem_cons.mp he with rfl | he
      · exact Or.inr (by rw [← hk])
      · exact Or.inl (by simp [he])
    · simp only [hk, if_false] at he
      rcases List.mem_cons.mp he with rfl | he
      · exact Or.inl (by simp)
      · rcases ih e he with h | h
        · exact Or.inl (by simp [h])
        · exact Or.inr h

theorem build_workbook_id_to_task_invariant :
    ∀ (tasks : List TaskItem) (m₀ m : List (Nat × TaskItem)),
      (∀ e ∈ m₀, e.2.target = some ⟨e.1, workbookTypeTag⟩) →
      tasks.foldlM
        (fun m task =>
          match task.target with
          | none => Except.error ()
          | some tgt =>
            if tgt.type = workbookTypeTag then Except.ok (dictInsert m tgt.id task)
            else Except.ok m) m₀ = Except.ok m →
      ∀ e ∈ m, e.2.target = some ⟨e.1, workbookTypeTag⟩ := by
  intro tasks
  induction tasks with
  | nil =>
    intro m₀ m h0 hfold
    have : m₀ = m := by simpa [pure, Except.pure] using hfold
    exact this ▸ h0
  | cons t rest ih =>
    intro m₀ m h0 hfold
    rw [List.foldlM_cons] at hfold
    rcases ht : t.target with _ | tgt
    · rw [ht] at hfold; simp [bind, Except.bind] at hfold
    · rw [ht] at hfold
      by_cases htype : tgt.type = workbookTypeTag
      · simp only [htype, if_true, bind, Except.bind] at hfold
        refine ih (dictInsert m₀ tgt.id t) m ?_ hfold
        intro e he
        rcases mem_dictInsert m₀ tgt.id t e he with h | rfl
        · exact h0 e h
        · rw [ht, ← htype]
      · simp only [htype, if_false, bind, Except.bind] at hfold
        exact ih m₀ m h0 hfold

/-- C1: the attach workflow per workbook, with the task map built from the
listing restricted to workbook-type targets.  With no existing task for the
workbook, exactly the schedule-membership creation is issued; with an
existing task already on the target schedule, no call at all is issued and
the row shows the target schedule's name; with a task on another schedule
and the user declining, no call is issued and the row shows the current
schedule's name; with the user accepting, the old task's delete is issued
first and the membership creation second.  Last conjunct: every entry of
the map built by `build_workbook_id_to_task` is a task with a
workbook-type target keyed by that target's id. -/
theorem attach_state_machine :
    (∀ (deleteRes : Nat → Bool) (addRes : Nat → Nat → Bool) (confirm : Workbook → Bool)
        (schedule : Schedule) (m : List (Nat × TaskItem)) (w : Workbook),
      dictFind? m w.id = none →
      (attach_one deleteRes addRes confirm schedule m w).1 =
        [Effect.addToSchedule schedule.id w.id]) ∧
    (∀ (deleteRes : Nat → Bool) (addRes : Nat → Nat → Bool) (confirm : Workbook → Bool)
        (schedule : Schedule) (m : List (Nat × TaskItem)) (w : Workbook)
        (task : TaskItem),
      dictFind? m w.id = some task → task.schedule_item.id = schedule.id →
      attach_one deleteRes addRes confirm schedule m w =
        ([], [(w.project_name ++ slash :: w.name, schedule.name)], 0)) ∧
    (∀ (deleteRes : Nat → Bool) (addRes : Nat → Nat → Bool) (confirm : Workbook → Bool)
        (schedule : Schedule) (m : List (Nat × TaskItem)) (w : Workbook)
        (task : TaskItem),
      dictFind? m w.id = some task → task.schedule_item.id ≠ schedule.id →
      confirm w = false →
      attach_one deleteRes addRes confirm schedule m w =
        ([], [(w.project_name ++ slash :: w.name, task.schedule_item.name)], 0)) ∧
    (∀ (deleteRes : Nat → Bool) (addRes : Nat → Nat → Bool) (confirm : Workbook → Bool)
        (schedule : Schedule) (m : List (Nat × TaskItem)) (w : Workbook)
        (task : TaskItem),
      dictFind? m w.id = some task → task.schedule_item.id ≠ schedule.id →
      confirm w = true → deleteRes task.id = true →
      (attach_one deleteRes addRes confirm schedule m w).1 =
        [Effect.deleteTask task.id, Effect.addToSchedule schedule.id w.id]) ∧
    (∀ (tasks : List TaskItem) (m : List (Nat × TaskItem)),
      build_workbook_id_to_task tasks = Except.ok m →
      ∀ e ∈ m, e.2.target = some ⟨e.1, workbookTypeTag⟩) := by
  refine ⟨?_, ?_, ?_, ?_, ?_⟩
  · intro deleteRes addRes confirm schedule m w h
    by_cases ha : addRes schedule.id w.id = true <;> simp [attach_one, h, ha]
  · intro deleteRes addRes confirm schedule m w task h heq
    simp [attach_one, h, heq]
  · intro deleteRes addRes confirm schedule m w task h hne hconf
    simp [attach_one, h, hne, hconf]
  · intro deleteRes addRes confirm schedule m w task h hne hconf hdel
    by_cases ha : addRes schedule.id w.id = true <;>
      simp [attach_one, h, hne, hconf, hdel, ha]
  · intro tasks m hbuild
    exact build_workbook_id_to_task_invariant tasks [] m (by simp) hbuild

theorem splitOnChar_ne_nil (sep : Char) : ∀ s : Str, splitOnChar sep s ≠ [] := by
  intro s
  induction s with
  | nil => simp [splitOnChar]
  | cons c rest ih =>
    rw [splitOnChar]
    rcases h : splitOnChar sep rest with _ | ⟨a, as⟩
    · exact absurd h ih
    · by_cases hc : c = sep <;> simp [hc]

theorem splitOnChar_no_sep (sep : Char) :
    ∀ s : Str, sep ∉ s → splitOnChar sep s = [s] := by
  intro s
  induction s with
  | nil => intro _; rfl
  | cons c rest ih =>
    intro h
    have hc : c ≠ sep := fun hc => h (by simp [hc])
    have hrest : sep ∉ rest := fun hr => h (by simp [hr])
    rw [splitOnChar, ih hrest]
    simp [fun hx => hc hx]

theorem splitOnChar_append_sep (sep : Char) :
    ∀ s t : Str, sep ∉ s →
      splitOnChar sep (s ++ sep :: t) = s :: splitOnChar sep t := by
  intro s
  induction s with
  | nil =>
    intro t _
    rw [List.nil_append, splitOnChar]
    rcases h : splitOnChar sep t with _ | ⟨a, as⟩
    · exact absurd h (splitOnChar_ne_nil sep t)
    · simp
  | cons c rest ih =>
    intro t h
    have hc : c ≠ sep := fun hc => h (by simp [hc])
    have hrest : sep ∉ rest := fun hr => h (by simp [hr])
    rw [List.cons_append, splitOnChar, ih t hrest]
    simp [fun hx => hc hx]

theorem splitOnChar_joinWith (sep : Char) :
    ∀ names : List Str, names ≠ [] → (∀ nm ∈ names, sep ∉ nm) →
      splitOnChar sep (joinWith sep names) = names := by
  intro names
  induction names with
  | nil => intro h _; exact absurd rfl h
  | cons a rest ih =>
    intro _ h
    rcases rest with _ | ⟨b, rs⟩
    · exact splitOnChar_no_sep sep a (h a (by simp))
    · have ha : sep ∉ a := h a (by simp)
      have hrest : ∀ nm ∈ b :: rs, sep ∉ nm := fun nm hnm => h nm (by simp [hnm])
      rw [joinWith, splitOnChar_append_sep sep a _ ha, ih (by simp) hrest]
      simp

theorem joinWith_append_single (sep : Char) :
    ∀ (xs : List Str) (y : Str), xs ≠ [] →
      joinWith sep (xs ++ [y]) = joinWith sep xs ++ sep :: y := by
  intro xs
  induction xs with
  | nil => intro y h; exact absurd rfl h
  | cons a rest ih =>
    intro y _
    rcases rest with _ | ⟨b, rs⟩
    · rfl
    · have h1 : (a :: b :: rs) ++ [y] = a :: ((b :: rs) ++ [y]) := rfl
      have h2 : joinWith sep (a :: ((b :: rs) ++ [y])) =
          a ++ sep :: joinWith sep ((b :: rs) ++ [y]) := rfl
      have h3 : joinWith sep (a :: b :: rs) = a ++ sep :: joinWith sep (b :: rs) := rfl
      rw [h1, h2, ih y (by simp), h3]
      simp

theorem ChainFrom_ne_nil {all_projects : List Project} {par : Option Nat}
    {l : List Project} (h : ChainFrom all_projects par l) : l ≠ [] := by
  cases h <;> simp

theorem ChainFrom_mem {all_projects : List Project} {par : Option Nat}
    {l : List Project} (h : ChainFrom all_projects par l) :
    ∀ x ∈ l, x ∈ all_projects := by
  induction h with
  | single p par hp hpar =>
    intro x hx
    simp at hx
    exact hx ▸ hp
  | cons p par rest hp hpar hrest ih =>
    intro x hx
    rcases List.mem_cons.mp hx with rfl | hx
    · exact hp
    · exact ih x hx

theorem ChainFrom_append {all_projects : List Project} :
    ∀ {par : Option Nat} {l : List Project}, ChainFrom all_projects par l →
      ∀ {x p : Project}, l.getLast? = some x → p ∈ all_projects →
        p.parent_id = some x.id → ChainFrom all_projects par (l ++ [p]) := by
  intro par l h
  induction h with
  | single q par hq hqpar =>
    intro x p hlast hp hpp
    obtain rfl : q = x := by simpa using hlast
    exact ChainFrom.cons q par [p] hq hqpar (ChainFrom.single p _ hp hpp)
  | cons q par rest hq hqpar hrest ih =>
    intro x p hlast hp hpp
    have hrne : rest ≠ [] := ChainFrom_ne_nil hrest
    rcases rest with _ | ⟨r0, rrest⟩
    · exact absurd rfl hrne
    · have hlast' : (r0 :: rrest).getLast? = some x := by
        rw [List.getLast?_cons_cons] at hlast
        exact hlast
      rw [List.cons_append]
      exact ChainFrom.cons q par _ hq hqpar (ih hlast' hp hpp)

theorem rootChain_some_ne_nil :
    ∀ (fuel : Nat) (project : Project) (all_projects : List Project)
      (ps : List Project), rootChain fuel project all_projects = some ps → ps ≠ [] := by
  intro fuel project all_projects ps h
  obtain ⟨pi, pn, pp⟩ := project
  rcases pp with _ | pid
  · rw [rootChain_parent_none] at h
    obtain rfl : [(⟨pi, pn, none⟩ : Project)] = ps := by simpa using h
    simp
  · rcases fuel with _ | n
    · rw [rootChain_parent_some_zero] at h; simp at h
    · rw [rootChain_parent_some] at h
      rcases hl : lookupProject all_projects pid with _ | parent
      · rw [hl] at h; simp at h
      · rw [hl] at h
        obtain ⟨qs, hqs, hps⟩ : ∃ qs, rootChain n parent all_projects = some qs ∧
            qs ++ [(⟨pi, pn, some pid⟩ : Project)] = ps := by simpa using h
        subst hps
        simp

theorem rootChain_chain :
    ∀ (fuel : Nat) (project : Project) (all_projects : List Project)
      (ps : List Project), project ∈ all_projects →
      rootChain fuel project all_projects = some ps →
      ChainFrom all_projects none ps ∧ ps.getLast? = some project := by
  intro fuel
  induction fuel with
  | zero =>
    intro project all_projects ps hmem h
    obtain ⟨pi, pn, pp⟩ := project
    rcases pp with _ | pid
    · rw [rootChain_parent_none] at h
      obtain rfl : [(⟨pi, pn, none⟩ : Project)] = ps := by simpa using h
      exact ⟨ChainFrom.single _ none hmem rfl, by simp⟩
    · rw [rootChain_parent_some_zero] at h; simp at h
  | succ n ih =>
    intro project all_projects ps hmem h
    obtain ⟨pi, pn, pp⟩ := project
    rcases pp with _ | pid
    · rw [rootChain_parent_none] at h
      obtain rfl : [(⟨pi, pn, none⟩ : Project)] = ps := by simpa using h
      exact ⟨ChainFrom.single _ none hmem rfl, by simp⟩
    · rw [rootChain_parent_some] at h
      rcases hl : lookupProject all_projects pid with _ | parent
      · rw [hl] at h; simp at h
      · rw [hl] at h
        obtain ⟨qs, hqs, hps⟩ : ∃ qs, rootChain n parent all_projects = some qs ∧
            qs ++ [(⟨pi, pn, some pid⟩ : Project)] = ps := by simpa using h
        have hpmem : parent ∈ all_projects := List.mem_of_find?_eq_some hl
        obtain ⟨hchain, hlast⟩ := ih parent all_projects qs hpmem hqs
        have hpid : parent.id = pid := by
          have := List.find?_some hl
          simpa using this
        subst hps
        refine ⟨ChainFrom_append hchain hlast hmem (by simp [hpid]), ?_⟩
        simp

theorem walkFrom_single (all_projects : List Project) (par : Option Nat) (n : Str) :
    walkFrom all_projects par [n] = childByName all_projects par n := rfl

theorem walkFrom_cons₂ (all_projects : List Project) (par : Option Nat) (n m : Str)
    (ms : List Str) :
    walkFrom all_projects par (n :: m :: ms) =
      match childByName all_projects par n with
      | none => none
      | some p => walkFrom all_projects (some p.id) (m :: ms) := rfl

theorem childByName_of_chain_elem {all_projects : List Project}
    (huniq : ∀ q ∈ all_projects, ∀ r ∈ all_projects,
      q.parent_id = r.parent_id → q.name = r.name → q.id = r.id)
    {p : Project} {par : Option Nat} (hp : p ∈ all_projects)
    (hpar : p.parent_id = par) :
    ∃ q, childByName all_projects par p.name = some q ∧ q.id = p.id := by
  have hiss : (all_projects.find?
      (fun r => decide (r.parent_id = par ∧ r.name = p.name))).isSome = true := by
    rw [List.find?_isSome]
    exact ⟨p, hp, by simp [hpar]⟩
  obtain ⟨q, hq⟩ := Option.isSome_iff_exists.mp hiss
  have hpred := List.find?_some hq
  have hqpred : q.parent_id = par ∧ q.name = p.name := by simpa using hpred
  have hqmem : q ∈ all_projects := List.mem_of_find?_eq_some hq
  exact ⟨q, hq, huniq q hqmem p hp (hqpred.1.trans hpar.symm) hqpred.2⟩

theorem walkFrom_chain {all_projects : List Project}
    (huniq : ∀ q ∈ all_projects, ∀ r ∈ all_projects,
      q.parent_id = r.parent_id → q.name = r.name → q.id = r.id) :
    ∀ {par : Option Nat} {l : List Project}, ChainFrom all_projects par l →
      ∀ {x : Project}, l.getLast? = some x →
        ∃ q, walkFrom all_projects par (l.map Project.name) = some q ∧ q.id = x.id := by
  intro par l h
  induction h with
  | single p par hp hpar =>
    intro x hlast
    obtain rfl : p = x := by simpa using hlast
    obtain ⟨q, hq, hqid⟩ := childByName_of_chain_elem huniq hp hpar
    exact ⟨q, by rw [List.map_singleton, walkFrom_single]; exact hq, hqid⟩
  | cons p par rest hp hpar hrest ih =>
    intro x hlast
    have hrne : rest ≠ [] := ChainFrom_ne_nil hrest
    rcases rest with _ | ⟨r0, rrest⟩
    · exact absurd rfl hrne
    · have hlast' : (r0 :: rrest).getLast? = some x := by
        rw [List.getLast?_cons_cons] at hlast
        exact hlast
      obtain ⟨r, hr, hrid⟩ := ih hlast'
      obtain ⟨q, hq, hqid⟩ := childByName_of_chain_elem huniq hp hpar
      refine ⟨r, ?_, hrid⟩
      rw [List.map_cons, List.map_cons, walkFrom_cons₂, hq]
      show walkFrom all_projects (some q.id) (r0.name :: List.map Project.name rrest) =
        some r
      rw [hqid]
      rw [List.map_cons] at hr
      exact hr

theorem find_project_path_eq_join :
    ∀ (fuel : Nat) (project : Project) (all_projects : List Project) (path : Str),
      (∀ q ∈ all_projects, q.name ≠ []) → project ∈ all_projects →
      find_project_path fuel project all_projects path =
        (rootChain fuel project all_projects).map
          (fun ps => if path = [] then joinWith slash (ps.map Project.name)
            else joinWith slash (ps.map Project.name) ++ slash :: path) := by
  intro fuel
  induction fuel with
  | zero =>
    intro project all_projects path hne hmem
    obtain ⟨pi, pn, pp⟩ := project
    rcases pp with _ | pid
    · rw [find_project_path_parent_none, rootChain_parent_none]
      rcases path with _ | ⟨c, cs⟩ <;> simp [joinWith]
    · rw [find_project_path_parent_some_zero, rootChain_parent_some_zero]; rfl
  | succ n ih =>
    intro project all_projects path hne hmem
    obtain ⟨pi, pn, pp⟩ := project
    rcases pp with _ | pid
    · rw [find_project_path_parent_none, rootChain_parent_none]
      rcases path with _ | ⟨c, cs⟩ <;> simp [joinWith]
    · rw [find_project_path_parent_some, rootChain_parent_some]
      rcases hl : lookupProject all_projects pid with _ | parent
      · rfl
      · have hpmem : parent ∈ all_projects := List.mem_of_find?_eq_some hl
        show find_project_path n parent all_projects
            (if path.length = 0 then pn else pn ++ slash :: path) =
          Option.map
            (fun ps => if path = [] then joinWith slash (ps.map Project.name)
              else joinWith slash (ps.map Project.name) ++ slash :: path)
            ((rootChain n parent all_projects).map
              (· ++ [(⟨pi, pn, some pid⟩ : Project)]))
        rw [ih parent all_projects _ hne hpmem, Option.map_map]
        rcases hc : rootChain n parent all_projects with _ | qs
        · rfl
        · have hqs : qs ≠ [] := rootChain_some_ne_nil n parent all_projects qs hc
          have hqnames : qs.map Project.name ≠ [] := by
            simpa using hqs
          have hpn : pn ≠ [] := hne ⟨pi, pn, some pid⟩ hmem
          rw [Option.map_some', Option.map_some']
          congr 1
          simp only [Function.comp_apply]
          rw [List.map_append, List.map_singleton,
            joinWith_append_single slash _ pn hqnames]
          rcases path with _ | ⟨c, cs⟩
          · simp [hpn]
          · simp [hpn]

theorem getLast?_list_map {α β : Type} (f : α → β) :
    ∀ l : List α, (l.map f).getLast? = l.getLast?.map f := by
  intro l
  induction l with
  | nil => rfl
  | cons a rest ih =>
    rcases rest with _ | ⟨b, rs⟩
    · rfl
    · rw [List.map_cons, List.map_cons, List.getLast?_cons_cons,
        List.getLast?_cons_cons]
      simpa using ih

/-- C7, amended: in an acyclic arena (the queried project's parent chain
reaches a root) whose project names are nonempty and free of `'/'`, and in
which two projects with the same parent and the same name coincide in id,
the path `find_project_path` returns splits on `'/'` into exactly the
chain's names — the ancestors root-first, ending with the queried project's
own name — and re-walking those components by name from the roots lands on
the queried project's id. -/
theorem path_round_trip (fuel : Nat) (project : Project) (all_projects : List Project)
    (ps : List Project) (hmem : project ∈ all_projects)
    (hchain : rootChain fuel project all_projects = some ps)
    (hnames : ∀ q ∈ all_projects, slash ∉ q.name ∧ q.name ≠ [])
    (huniq : ∀ q ∈ all_projects, ∀ r ∈ all_projects,
      q.parent_id = r.parent_id → q.name = r.name → q.id = r.id) :
    ∃ path, find_project_path fuel project all_projects [] = some path ∧
      splitOnChar slash path = ps.map Project.name ∧
      (ps.map Project.name).getLast? = some project.name ∧
      ∃ q, walkFrom all_projects none (splitOnChar slash path) = some q ∧
        q.id = project.id := by
  have hne : ∀ q ∈ all_projects, q.name ≠ [] := fun q hq => (hnames q hq).2
  have hbridge := find_project_path_eq_join fuel project all_projects [] hne hmem
  rw [hchain] at hbridge
  obtain ⟨hchainFrom, hlast⟩ := rootChain_chain fuel project all_projects ps hmem hchain
  have hpsne : ps ≠ [] := ChainFrom_ne_nil hchainFrom
  have hnoslash : ∀ nm ∈ ps.map Project.name, slash ∉ nm := by
    intro nm hnm
    obtain ⟨q, hqps, rfl⟩ := List.mem_map.mp hnm
    exact (hnames q (ChainFrom_mem hchainFrom q hqps)).1
  have hsplit : splitOnChar slash (joinWith slash (ps.map Project.name)) =
      ps.map Project.name :=
    splitOnChar_joinWith slash _ (by simpa using hpsne) hnoslash
  refine ⟨joinWith slash (ps.map Project.name), by simpa using hbridge, hsplit, ?_, ?_⟩
  · rw [getLast?_list_map, hlast]
    rfl
  · rw [hsplit]
    exact walkFrom_chain huniq hchainFrom hlast

/-- C7, counterexample to the claim as stated (with no restriction on
names): a `'/'` inside a project name makes the split disagree with the
ancestor-name list; an empty project name is swallowed by the path
accumulator, so the split misses it; and two same-named roots send the
re-walk down the wrong sibling, so it fails to reproduce the project. -/
theorem path_round_trip_cex :
    (find_project_path 1 cexSlashRoot [cexSlashRoot] [] = some ['a', '/', 'b'] ∧
      rootChain 1 cexSlashRoot [cexSlashRoot] = some [cexSlashRoot] ∧
      splitOnChar slash ['a', '/', 'b'] ≠ [cexSlashRoot].map Project.name) ∧
    (find_project_path 2 cexEmptyChild [cexEmptyRoot, cexEmptyChild] [] = some ['r'] ∧
      rootChain 2 cexEmptyChild [cexEmptyRoot, cexEmptyChild] =
        some [cexEmptyRoot, cexEmptyChild] ∧
      splitOnChar slash ['r'] ≠ [cexEmptyRoot, cexEmptyChild].map Project.name) ∧
    (find_project_path 2 cexDupChild [cexDupRootA, cexDupRootB, cexDupChild] [] =
        some ['a', '/', 'b'] ∧
      rootChain 2 cexDupChild [cexDupRootA, cexDupRootB, cexDupChild] =
        some [cexDupRootB, cexDupChild] ∧
      splitOnChar slash ['a', '/', 'b'] =
        [cexDupRootB, cexDupChild].map Project.name ∧
      walkFrom [cexDupRootA, cexDupRootB, cexDupChild] none
        (splitOnChar slash ['a', '/', 'b']) = none) := by decide

/-- C7, witness: the amended round trip instantiated on a two-level arena
(root `r` with child `c`). -/
theorem path_round_trip_witness :
    ∃ path,
      find_project_path 1 ⟨2, ['c'], some 1⟩ [⟨1, ['r'], none⟩, ⟨2, ['c'], some 1⟩] [] =
        some path ∧
      splitOnChar slash path =
        [(⟨1, ['r'], none⟩ : Project), ⟨2, ['c'], some 1⟩].map Project.name ∧
      ([(⟨1, ['r'], none⟩ : Project), ⟨2, ['c'], some 1⟩].map Project.name).getLast? =
        some (⟨2, ['c'], some 1⟩ : Project).name ∧
      ∃ q, walkFrom [⟨1, ['r'], none⟩, ⟨2, ['c'], some 1⟩] none (splitOnChar slash path) =
        some q ∧ q.id = (⟨2, ['c'], some 1⟩ : Project).id :=
  path_round_trip 1 ⟨2, ['c'], some 1⟩ [⟨1, ['r'], none⟩, ⟨2, ['c'], some 1⟩]
    [⟨1, ['r'], none⟩, ⟨2, ['c'], some 1⟩] (by decide) (by decide) (by decide) (by decide)

theorem dictFind?_dictInsert_self {α : Type} :
    ∀ (m : List (Nat × α)) (k : Nat) (v : α), dictFind? (dictInsert m k v) k = some v := by
  intro m k v
  induction m with
  | nil => simp [dictInsert, dictFind?]
  | cons p rest ih =>
    rw [dictInsert]
    by_cases hk : p.1 = k
    · simp [dictFind?, hk]
    · simp only [hk, if_false]
      simpa [dictFind?, hk] using ih

theorem dictFind?_dictInsert_ne {α : Type} :
    ∀ (m : List (Nat × α)) (k : Nat) (v : α) (j : Nat), j ≠ k →
      dictFind? (dictInsert m k v) j = dictFind? m j := by
  intro m k v j hj
  induction m with
  | nil =>
    show dictFind? [(k, v)] j = dictFind? [] j
    simp [dictFind?, Ne.symm hj]
  | cons p rest ih =>
    by_cases hk : p.1 = k
    · have h1 : dictInsert (p :: rest) k v = (p.1, v) :: rest := by
        rw [dictInsert, if_pos hk]
      rw [h1]
      by_cases hpj : p.1 = j
      · exact absurd (hpj.symm.trans hk) hj
      · simp [dictFind?, hpj]
    · have h1 : dictInsert (p :: rest) k v = p :: dictInsert rest k v := by
        rw [dictInsert, if_neg hk]
      rw [h1]
      by_cases hpj : p.1 = j
      · simp [dictFind?, hpj]
      · simp only [dictFind?] at ih ⊢
        simp [hpj, ih]

theorem mem_distinctList : ∀ (l : List Str) (x : Str), x ∈ distinctList l ↔ x ∈ l := by
  intro l x
  induction l with
  | nil => simp [distinctList]
  | cons a rest ih =>
    rw [distinctList]
    by_cases ha : a ∈ rest
    · rw [if_pos ha, ih]
      constructor
      · intro h; simp [h]
      · intro h
        rcases List.mem_cons.mp h with rfl | h
        · exact ha
        · exact h
    · rw [if_neg ha]
      simp [ih]

theorem addToMapping_keys (k : Str) (v : Str) :
    ∀ m : List (Str × List Str), (addToMapping m k v).map (·.1) =
      if k ∈ m.map (·.1) then m.map (·.1) else m.map (·.1) ++ [k] := by
  intro m
  induction m with
  | nil => simp [addToMapping]
  | cons p rest ih =>
    by_cases hk : p.1 = k
    · have h1 : addToMapping (p :: rest) k v = (p.1, p.2 ++ [v]) :: rest := by
        rw [addToMapping, if_pos hk]
      rw [h1]
      simp [hk]
    · have h1 : addToMapping (p :: rest) k v = p :: addToMapping rest k v := by
        rw [addToMapping, if_neg hk]
      rw [h1]
      have hk' : k ≠ p.1 := fun h => hk h.symm
      simp only [List.map_cons, ih, List.mem_cons, hk', false_or]
      by_cases hmem : k ∈ rest.map (·.1)
      · simp [hmem]
      · simp [hmem]

theorem addToMapping_keys_nodup (k : Str) (v : Str) (m : List (Str × List Str))
    (h : (m.map (·.1)).Nodup) : ((addToMapping m k v).map (·.1)).Nodup := by
  rw [addToMapping_keys]
  by_cases hmem : k ∈ m.map (·.1)
  · simpa [hmem] using h
  · rw [if_neg hmem]
    rw [List.nodup_append]
    exact ⟨h, List.nodup_singleton k, by simpa [List.disjoint_singleton] using hmem⟩

theorem mem_addToMapping_keys (k : Str) (v : Str) (m : List (Str × List Str)) (x : Str) :
    x ∈ (addToMapping m k v).map (·.1) ↔ x ∈ m.map (·.1) ∨ x = k := by
  rw [addToMapping_keys]
  by_cases hmem : k ∈ m.map (·.1)
  · rw [if_pos hmem]
    constructor
    · exact fun h => Or.inl h
    · rintro (h | rfl)
      · exact h
      · exact hmem
  · rw [if_neg hmem]
    simp

theorem parse_workbook_path_keys :
    ∀ (paths : List Str) (m : List (Str × List Str)),
      (((paths.foldl (fun m wp => addToMapping m (pathLeaf wp) (pathStem wp)) m).map
          (·.1)).Nodup ∨ ¬ (m.map (·.1)).Nodup) ∧
      (∀ x, x ∈ ((paths.foldl
          (fun m wp => addToMapping m (pathLeaf wp) (pathStem wp)) m).map (·.1)) ↔
        x ∈ m.map (·.1) ∨ x ∈ paths.map pathLeaf) := by
  intro paths
  induction paths with
  | nil => intro m; exact ⟨by tauto, by simp⟩
  | cons wp rest ih =>
    intro m
    rw [List.foldl_cons]
    constructor
    · rcases (ih (addToMapping m (pathLeaf wp) (pathStem wp))).1 with h | h
      · exact Or.inl h
      · by_cases hm : (m.map (·.1)).Nodup
        · exact absurd (addToMapping_keys_nodup _ _ m hm) h
        · exact Or.inr hm
    · intro x
      rw [(ih (addToMapping m (pathLeaf wp) (pathStem wp))).2 x,
        mem_addToMapping_keys]
      simp [or_assoc]

theorem setRemove_eq_some {s : List Str} {x : Str} {r : List Str}
    (h : setRemove s x = some r) : r = s.erase x := by
  rw [setRemove] at h
  by_cases hx : x ∈ s
  · rw [if_pos hx] at h
    exact (Option.some_inj.mp h).symm
  · rw [if_neg hx] at h
    exact absurd h (by simp)

theorem locate_fold_mapping (fuel : Nat) (all_projects : List Project)
    (workbook_paths : List Str) (wb : Workbook) :
    ∀ (wbs : List Workbook) (st out : List Str × List (Nat × Workbook)),
      (∀ w ∈ wbs, w.id = wb.id → w = wb) →
      wbs.foldlM (locateStep fuel all_projects workbook_paths) st = Except.ok out →
      (dictFind? out.2 wb.id = some wb ↔
        dictFind? st.2 wb.id = some wb ∨
          (wb ∈ wbs ∧ pathMatched fuel all_projects workbook_paths wb)) := by
  intro wbs
  induction wbs with
  | nil =>
    intro st out _ hfold
    obtain rfl : st = out := by simpa [pure, Except.pure] using hfold
    simp
  | cons w rest ih =>
    intro st out hU hfold
    rw [List.foldlM_cons] at hfold
    have hUrest : ∀ x ∈ rest, x.id = wb.id → x = wb := fun x hx => hU x (by simp [hx])
    rcases hr : resolvedPath fuel all_projects w with _ | path
    · simp [locateStep, hr, bind, Except.bind] at hfold
    · by_cases hmem : path ∈ workbook_paths
      · rcases hsr : setRemove st.1 path with _ | remaining
        · simp [locateStep, hr, hmem, hsr, bind, Except.bind] at hfold
        · have hfold' : rest.foldlM (locateStep fuel all_projects workbook_paths)
              (remaining, dictInsert st.2 w.id w) = Except.ok out := by
            simpa [locateStep, hr, hmem, hsr, bind, Except.bind] using hfold
          rw [ih _ out hUrest hfold']
          by_cases hid : w.id = wb.id
          · have hww : w = wb := hU w (by simp) hid
            subst hww
            have hm : pathMatched fuel all_projects workbook_paths w :=
              ⟨path, hr, hmem⟩
            simp [dictFind?_dictInsert_self, hm]
          · have hne : wb ≠ w := fun h => hid (by rw [h])
            rw [dictFind?_dictInsert_ne st.2 w.id w wb.id (fun h => hid h.symm)]
            simp [List.mem_cons, hne]
      · have hfold' : rest.foldlM (locateStep fuel all_projects workbook_paths) st =
            Except.ok out := by
          simpa [locateStep, hr, hmem, bind, Except.bind] using hfold
        rw [ih _ out hUrest hfold']
        constructor
        · rintro (h | ⟨hmemr, hm⟩)
          · exact Or.inl h
          · exact Or.inr ⟨by simp [hmemr], hm⟩
        · rintro (h | ⟨hmemr, hm⟩)
          · exact Or.inl h
          · rcases List.mem_cons.mp hmemr with rfl | hmemr
            · obtain ⟨p, hp, hpmem⟩ := hm
              rw [hr] at hp
              obtain rfl : path = p := Option.some_inj.mp hp
              exact absurd hpmem hmem
            · exact Or.inr ⟨hmemr, hm⟩

theorem locate_fold_leftover (fuel : Nat) (all_projects : List Project)
    (workbook_paths : List Str) (path₀ : Str) :
    ∀ (wbs : List Workbook) (st out : List Str × List (Nat × Workbook)),
      (∀ w ∈ wbs, resolvedPath fuel all_projects w ≠ some path₀) →
      wbs.foldlM (locateStep fuel all_projects workbook_paths) st = Except.ok out →
      path₀ ∈ st.1 → path₀ ∈ out.1 := by
  intro wbs
  induction wbs with
  | nil =>
    intro st out _ hfold hin
    obtain rfl : st = out := by simpa [pure, Except.pure] using hfold
    exact hin
  | cons w rest ih =>
    intro st out hno hfold hin
    rw [List.foldlM_cons] at hfold
    have hnorest : ∀ x ∈ rest, resolvedPath fuel all_projects x ≠ some path₀ :=
      fun x hx => hno x (by simp [hx])
    rcases hr : resolvedPath fuel all_projects w with _ | path
    · simp [locateStep, hr, bind, Except.bind] at hfold
    · have hpne : path₀ ≠ path := by
        intro hc
        exact hno w (by simp) (by rw [hr, hc])
      by_cases hmem : path ∈ workbook_paths
      · rcases hsr : setRemove st.1 path with _ | remaining
        · simp [locateStep, hr, hmem, hsr, bind, Except.bind] at hfold
        · have hfold' : rest.foldlM (locateStep fuel all_projects workbook_paths)
              (remaining, dictInsert st.2 w.id w) = Except.ok out := by
            simpa [locateStep, hr, hmem, hsr, bind, Except.bind] using hfold
          refine ih _ out hnorest hfold' ?_
          show path₀ ∈ remaining
          rw [setRemove_eq_some hsr]
          exact (List.mem_erase_of_ne hpne).mpr hin
      · have hfold' : rest.foldlM (locateStep fuel all_projects workbook_paths) st =
            Except.ok out := by
          simpa [locateStep, hr, hmem, bind, Except.bind] using hfold
        exact ih _ out hnorest hfold' hin

theorem locateGroup_ok {fuel : Nat} {all_projects : List Project}
    {queryByName : Str → List Workbook} {mapping : List (Nat × Workbook)}
    {workbook_name : Str} {workbook_paths : List Str}
    {r : List (Nat × Workbook) × List Str}
    (h : locateGroup fuel all_projects queryByName mapping workbook_name
      workbook_paths = Except.ok r) :
    ∃ stout, (queryByName workbook_name).foldlM
        (locateStep fuel all_projects workbook_paths)
        (distinctList workbook_paths, mapping) = Except.ok stout ∧
      r = (stout.2, stout.1.map (fun path => path ++ slash :: workbook_name)) := by
  rcases hf : (queryByName workbook_name).foldlM
      (locateStep fuel all_projects workbook_paths)
      (distinctList workbook_paths, mapping) with e | stout
  · rw [locateGroup] at h
    rw [hf] at h
    simp [bind, Except.bind] at h
  · rw [locateGroup] at h
    rw [hf] at h
    refine ⟨stout, rfl, ?_⟩
    simpa [bind, Except.bind, pure, Except.pure] using h.symm

theorem groups_fold_mapping (fuel : Nat) (all_projects : List Project)
    (queryByName : Str → List Workbook) (wb : Workbook) :
    ∀ (gs : List (Str × List Str)) (acc out : List (Nat × Workbook) × List Str),
      (∀ g ∈ gs, ∀ w ∈ queryByName g.1, w.id = wb.id → w = wb) →
      gs.foldlM (fun (acc : List (Nat × Workbook) × List Str) group => do
          let r ← locateGroup fuel all_projects queryByName acc.1 group.1 group.2
          return (r.1, acc.2 ++ r.2)) acc = Except.ok out →
      (dictFind? out.1 wb.id = some wb ↔
        dictFind? acc.1 wb.id = some wb ∨
          ∃ g ∈ gs, wb ∈ queryByName g.1 ∧ pathMatched fuel all_projects g.2 wb) := by
  intro gs
  induction gs with
  | nil =>
    intro acc out _ hfold
    obtain rfl : acc = out := by simpa [pure, Except.pure] using hfold
    simp
  | cons g rest ih =>
    intro acc out hU hfold
    rw [List.foldlM_cons] at hfold
    rcases hg : locateGroup fuel all_projects queryByName acc.1 g.1 g.2 with e | r
    · simp [hg, bind, Except.bind] at hfold
    · have hfold' : rest.foldlM (fun (acc : List (Nat × Workbook) × List Str) group => do
          let r ← locateGroup fuel all_projects queryByName acc.1 group.1 group.2
          return (r.1, acc.2 ++ r.2)) (r.1, acc.2 ++ r.2) = Except.ok out := by
        simpa [hg, bind, Except.bind] using hfold
      obtain ⟨stout, hsf, hr⟩ := locateGroup_ok hg
      have hUg : ∀ w ∈ queryByName g.1, w.id = wb.id → w = wb := hU g (by simp)
      have hUrest : ∀ g' ∈ rest, ∀ w ∈ queryByName g'.1, w.id = wb.id → w = wb :=
        fun g' hg' => hU g' (by simp [hg'])
      have hinner := locate_fold_mapping fuel all_projects g.2 wb (queryByName g.1)
        (distinctList g.2, acc.1) stout hUg hsf
      rw [ih (r.1, acc.2 ++ r.2) out hUrest hfold']
      have hr1 : r.1 = stout.2 := by rw [hr]
      rw [hr1, hinner]
      constructor
      · rintro ((h | hgw) | ⟨g', hg'mem, hcond⟩)
        · exact Or.inl h
        · exact Or.inr ⟨g, by simp, hgw.1, hgw.2⟩
        · exact Or.inr ⟨g', by simp [hg'mem], hcond⟩
      · rintro (h | ⟨g', hg'mem, hcond⟩)
        · exact Or.inl (Or.inl h)
        · rcases List.mem_cons.mp hg'mem with rfl | hg'mem
          · exact Or.inl (Or.inr hcond)
          · exact Or.inr ⟨g', hg'mem, hcond⟩

theorem groups_fold_diags (fuel : Nat) (all_projects : List Project)
    (queryByName : Str → List Workbook) :
    ∀ (gs : List (Str × List Str)) (acc out : List (Nat × Workbook) × List Str),
      gs.foldlM (fun (acc : List (Nat × Workbook) × List Str) group => do
          let r ← locateGroup fuel all_projects queryByName acc.1 group.1 group.2
          return (r.1, acc.2 ++ r.2)) acc = Except.ok out →
      (∀ d ∈ acc.2, d ∈ out.2) ∧
      (∀ g ∈ gs, ∀ path₀ ∈ g.2,
        (∀ w ∈ queryByName g.1, resolvedPath fuel all_projects w ≠ some path₀) →
        (path₀ ++ slash :: g.1) ∈ out.2) := by
  intro gs
  induction gs with
  | nil =>
    intro acc out hfold
    obtain rfl : acc = out := by simpa [pure, Except.pure] using hfold
    exact ⟨fun d hd => hd, by simp⟩
  | cons g rest ih =>
    intro acc out hfold
    rw [List.foldlM_cons] at hfold
    rcases hg : locateGroup fuel all_projects queryByName acc.1 g.1 g.2 with e | r
    · simp [hg, bind, Except.bind] at hfold
    · have hfold' : rest.foldlM (fun (acc : List (Nat × Workbook) × List Str) group => do
          let r ← locateGroup fuel all_projects queryByName acc.1 group.1 group.2
          return (r.1, acc.2 ++ r.2)) (r.1, acc.2 ++ r.2) = Except.ok out := by
        simpa [hg, bind, Except.bind] using hfold
      obtain ⟨hmono, hrest⟩ := ih (r.1, acc.2 ++ r.2) out hfold'
      constructor
      · intro d hd
        exact hmono d (by simp [hd])
      · intro g' hg'mem path₀ hp hno
        rcases List.mem_cons.mp hg'mem with rfl | hg'mem
        · obtain ⟨stout, hsf, hr⟩ := locateGroup_ok hg
          have hin : path₀ ∈ stout.1 :=
            locate_fold_leftover fuel all_projects g'.2 path₀ (queryByName g'.1)
              (distinctList g'.2, acc.1) stout hno hsf
              ((mem_distinctList g'.2 path₀).mpr hp)
          have hdiag : (path₀ ++ slash :: g'.1) ∈ r.2 := by
            rw [hr]
            exact List.mem_map_of_mem _ hin
          exact hmono _ (by simp [hdiag])
        · exact hrest g' hg'mem path₀ hp hno

/-- C2: on a by-path resolution that returns (no uncaught exception) and
against a server whose workbook ids are unique across query results, the
run issues exactly one filtered query per distinct workbook name of the
path list (`queries` has no duplicate and holds exactly the names of the
input paths); a returned workbook is in the result mapping under its id
exactly when its resolved project path is one of the requested paths of
its name's group; and every requested path that no returned workbook of
its group resolves to is reported as a diagnostic line. -/
theorem by_path_resolution (fuel : Nat) (all_projects : List Project)
    (queryByName : Str → List Workbook) (path_list : List Str)
    (m : List (Nat × Workbook)) (diags queries : List Str)
    (hok : get_workbooks_from_paths fuel all_projects queryByName path_list =
      Except.ok (m, diags, queries))
    (hU : ∀ (n₁ n₂ : Str) (w₁ w₂ : Workbook), w₁ ∈ queryByName n₁ →
      w₂ ∈ queryByName n₂ → w₁.id = w₂.id → w₁ = w₂) :
    (queries.Nodup ∧ ∀ n, n ∈ queries ↔ n ∈ path_list.map pathLeaf) ∧
    (∀ wb : Workbook, (∃ n₀, wb ∈ queryByName n₀) →
      (dictFind? m wb.id = some wb ↔
        ∃ g ∈ parse_workbook_path path_list, wb ∈ queryByName g.1 ∧
          pathMatched fuel all_projects g.2 wb)) ∧
    (∀ g ∈ parse_workbook_path path_list, ∀ path₀ ∈ g.2,
      (∀ w ∈ queryByName g.1, resolvedPath fuel all_projects w ≠ some path₀) →
      (path₀ ++ slash :: g.1) ∈ diags) := by
  rcases hf : (parse_workbook_path path_list).foldlM
      (fun (acc : List (Nat × Workbook) × List Str) group => do
        let r ← locateGroup fuel all_projects queryByName acc.1 group.1 group.2
        return (r.1, acc.2 ++ r.2)) ([], []) with e | out
  · rw [get_workbooks_from_paths] at hok
    rw [hf] at hok
    simp [bind, Except.bind] at hok
  · rw [get_workbooks_from_paths] at hok
    rw [hf] at hok
    obtain ⟨h1, h2, h3⟩ : out.1 = m ∧ out.2 = diags ∧
        (parse_workbook_path path_list).map (·.1) = queries := by
      simpa [bind, Except.bind, pure, Except.pure] using hok
    subst h1; subst h2; subst h3
    have hpk := parse_workbook_path_keys path_list []
    have hparse : path_list.foldl
        (fun m wp => addToMapping m (pathLeaf wp) (pathStem wp)) [] =
        parse_workbook_path path_list := rfl
    rw [hparse] at hpk
    refine ⟨⟨?_, ?_⟩, ?_, ?_⟩
    · rcases hpk.1 with h | h
      · exact h
      · exact absurd (by simp) h
    · intro n
      rw [hpk.2 n]
      simp
    · intro wb hwbq
      obtain ⟨n₀, hn₀⟩ := hwbq
      have hUwb : ∀ g ∈ parse_workbook_path path_list, ∀ w ∈ queryByName g.1,
          w.id = wb.id → w = wb :=
        fun g _ w hw hid => hU g.1 n₀ w wb hw hn₀ hid
      have := groups_fold_mapping fuel all_projects queryByName wb
        (parse_workbook_path path_list) ([], []) out hUwb hf
      rw [this]
      simp [dictFind?]
    · intro g hg path₀ hp hno
      exact (groups_fold_diags fuel all_projects queryByName
        (parse_workbook_path path_list) ([], []) out hf).2 g hg path₀ hp hno

/-- C2, witness: the by-path resolution scenario with one existing and one
missing workbook path — one query per distinct name, one mapping entry,
one diagnostic. -/
theorem by_path_resolution_witness :
    (([(['R'] : Str), ['Q']] : List Str).Nodup ∧
      ∀ n : Str, n ∈ [(['R'] : Str), ['Q']] ↔ n ∈ wpPaths.map pathLeaf) ∧
    (∀ wb : Workbook, (∃ n₀, wb ∈ wpQuery n₀) →
      (dictFind? [(100, wpWb)] wb.id = some wb ↔
        ∃ g ∈ parse_workbook_path wpPaths, wb ∈ wpQuery g.1 ∧
          pathMatched 1 wpProjects g.2 wb)) ∧
    (∀ g ∈ parse_workbook_path wpPaths, ∀ path₀ ∈ g.2,
      (∀ w ∈ wpQuery g.1, resolvedPath 1 wpProjects w ≠ some path₀) →
      (path₀ ++ slash :: g.1) ∈ [(['D', '/', 'M', '/', 'Q'] : Str)]) :=
  by_path_resolution 1 wpProjects wpQuery wpPaths [(100, wpWb)]
    [['D', '/', 'M', '/', 'Q']] [['R'], ['Q']] rfl
    (by
      intro n₁ n₂ w₁ w₂ h₁ h₂ _
      have e₁ : w₁ = wpWb := by simpa [wpQuery] using h₁
      have e₂ : w₂ = wpWb := by simpa [wpQuery] using h₂
      rw [e₁, e₂])
